import Mathlib

/-!
Verification of the Go-record indexing core of `obsidian-go-manager`
(`src/main.ts`).  The algorithmic core of the plugin lives in the
DataviewJS program that `Create Show Data` generates: a tag extractor, an
opening-move extractor, a branch-point scanner, an opening-pattern
matcher, a result formatter, a statistics aggregator, a paging view
controller, a note materializer, and a percentage helper.  Each of those
is embedded below as an executable Lean function translated from the
TypeScript/JavaScript source, and the behavioural claims about them are
settled as theorems at the end of the file.

Conventions used throughout the embedding:
* JavaScript strings are modelled as Lean `String` / `List Char`;
  JavaScript numbers are modelled as `Nat` / `Int` where the source only
  ever holds integers, and as `ℚ` where fractional values occur
  (double-precision rounding is commented at each use site).
* The two character-scanning loops of the source advance their position
  by at least one character per iteration; they are embedded with an
  explicit fuel argument instantiated with the input length, which the
  progress theorems below show is never exhausted early.
* Fallible JavaScript operations (`Number(...)` producing `NaN`,
  `indexOf` missing) are modelled with `Option`.
-/

/-- Character class of the JavaScript `\s` regex escape and of
`String.prototype.trim`: space, `\t`, `\n`, `\v`, `\f`, `\r`, NBSP,
Ogham space mark, the `U+2000`–`U+200A` range, line/paragraph
separators, narrow NBSP, medium mathematical space, ideographic space,
and the BOM. -/
def isJsSpace (c : Char) : Bool :=
  let n := c.toNat
  n == 32 || n == 9 || n == 10 || n == 11 || n == 12 || n == 13 || n == 160 ||
  n == 5760 || (8192 ≤ n && n ≤ 8202) || n == 8232 || n == 8233 ||
  n == 8239 || n == 8287 || n == 12288 || n == 65279

/-- JavaScript `String.prototype.trim` on a character list: drop leading
whitespace, then drop trailing whitespace. -/
def trimJS (l : List Char) : List Char :=
  ((l.dropWhile isJsSpace).reverse.dropWhile isJsSpace).reverse

/-- JavaScript `s.trim()` (used by the source as `reRaw.trim()`,
`src.trim()` and `m[1].trim()`). -/
def trimString (s : String) : String :=
  ⟨trimJS s.data⟩

/-- JavaScript `s.startsWith(pre)`. -/
def startsWithJS (s pre : String) : Bool :=
  pre.data.isPrefixOf s.data

/-- JavaScript `s.slice(n)` for a non-negative start index. -/
def dropJS (s : String) (n : Nat) : String :=
  ⟨s.data.drop n⟩

/-! ### Tag Extractor (`tag`, src/main.ts lines 123–129)

The source matches the regular expression
`(?:^|[;\s\(\]])KEY\s*\[([^\]]*)\]` against the raw record text and
returns the first capture trimmed, or `""` when there is no match.
Because the capture class `[^\]]*` is greedy over non-`]` characters and
`\s*` is greedy over whitespace followed by the mandatory `[`, the
engine's backtracking is deterministic, and leftmost-match semantics
reduce to: try the bare key at position 0 (the `^` alternative), then
try `boundary-character, key` at positions 0, 1, 2, …  The functions
below implement exactly that. -/

/-- Boundary class `[;\s\(\]]` that must precede the key (unless the key
sits at the very start of the text). -/
def isTagBoundary (c : Char) : Bool :=
  c == ';' || isJsSpace c || c == '(' || c == ']'

/-- Characters of a bracketed value: everything up to the next `]`;
`none` when the bracket is unterminated (the regex then fails to
match). -/
def takeUntilRB : List Char → Option (List Char)
  | [] => none
  | c :: rest => if c == ']' then some [] else (takeUntilRB rest).map (fun v => c :: v)

/-- Attempt the suffix of the regex (`KEY\s*\[([^\]]*)\]`) at the head of
`s`. -/
def matchKeyAt (s key : List Char) : Option (List Char) :=
  if key.isPrefixOf s then
    match (s.drop key.length).dropWhile isJsSpace with
    | '[' :: tail => takeUntilRB tail
    | _ => none
  else none

/-- Scan for the leftmost position whose character is in the boundary
class and is immediately followed by a successful key match. -/
def tagScan (key : List Char) : List Char → Option (List Char)
  | [] => none
  | c :: rest =>
    if isTagBoundary c then
      match matchKeyAt rest key with
      | some v => some v
      | none => tagScan key rest
    else tagScan key rest

/-- `tag(src, key)` of the source: first capture of
`(?:^|[;\s\(\]])key\s*\[([^\]]*)\]`, trimmed; `""` when the regex does
not match.  (The keys the source passes — `SZ`, `PB`, `PW`, `GN`, `HA`,
`RE` — contain no regex metacharacters, so the key is matched
literally.) -/
def tag (src key : String) : String :=
  match matchKeyAt src.data key.data with
  | some v => ⟨trimJS v⟩
  | none =>
    match tagScan key.data src.data with
    | some v => ⟨trimJS v⟩
    | none => ""

/-! ### JavaScript number parsing and printing (`Number`, template
interpolation), used by the result formatter. -/

/-- ASCII decimal digit. -/
def isDigitJS (c : Char) : Bool :=
  48 ≤ c.toNat && c.toNat ≤ 57

/-- Value of a digit string. -/
def natOfDigits (l : List Char) : Nat :=
  l.foldl (fun a c => a * 10 + (c.toNat - 48)) 0

/-- Exponent tail of a decimal literal (`e`/`E`, optional sign, digits,
end of input). -/
def parseExpTail (base : ℚ) (t : List Char) : Option ℚ :=
  let st : Bool × List Char :=
    match t with
    | '+' :: r => (false, r)
    | '-' :: r => (true, r)
    | _ => (false, t)
  let ds := st.2.takeWhile isDigitJS
  let rest := st.2.dropWhile isDigitJS
  if ds.isEmpty || !rest.isEmpty then none
  else some (if st.1 then base / 10 ^ natOfDigits ds else base * 10 ^ natOfDigits ds)

/-- Optional exponent after the mantissa; anything else trailing makes
the whole literal invalid (`NaN`). -/
def parseExponent (base : ℚ) (l : List Char) : Option ℚ :=
  match l with
  | [] => some base
  | 'e' :: t => parseExpTail base t
  | 'E' :: t => parseExpTail base t
  | _ => none

/-- Unsigned decimal literal `digits [. digits] [exponent]`, requiring at
least one digit overall. -/
def parseDecimal (l : List Char) : Option ℚ :=
  let ip := l.takeWhile isDigitJS
  let r1 := l.dropWhile isDigitJS
  let fr : List Char × List Char :=
    match r1 with
    | '.' :: t => (t.takeWhile isDigitJS, t.dropWhile isDigitJS)
    | _ => ([], r1)
  if ip.isEmpty && fr.1.isEmpty then none
  else parseExponent ((natOfDigits ip : ℚ) + (natOfDigits fr.1 : ℚ) / 10 ^ fr.1.length) fr.2

/-- JavaScript `Number(string)` restricted to decimal literals: trimmed
input, empty string is `0`, optional sign, digits with optional fraction
and exponent; `none` models `NaN`.  (The special forms `Infinity` and
`0x…`/`0b…`/`0o…` literals are not produced by game results and are
mapped to `NaN` here.)  The exact rational value is returned; the
double-precision rounding JavaScript performs is irrelevant to the
margin codes the formatter distinguishes. -/
def jsNumber (s : String) : Option ℚ :=
  match trimJS s.data with
  | [] => some 0
  | '+' :: t => parseDecimal t
  | '-' :: t => (parseDecimal t).map (fun q => -q)
  | l => parseDecimal l

/-- Smallest power of ten clearing the denominator of `q`, when one
exists among the first 30 exponents (enough for every decimal literal
the formatter can receive). -/
def decPow (q : ℚ) : Option Nat :=
  (List.range 30).find? (fun k => (q * 10 ^ k).den = 1)

/-- Left-pad a numeral with zeros to `k` digits. -/
def padLeftZeros (s : String) (k : Nat) : String :=
  ⟨List.replicate (k - s.length) '0' ++ s.data⟩

/-- Decimal rendering of a non-negative rational with a power-of-ten
denominator, shortest form (no trailing zeros), as JavaScript prints
such numbers. -/
def jsNumToStringNonneg (q : ℚ) : String :=
  if q.den = 1 then toString q.num
  else
    match decPow q with
    | some k =>
      let n := (q * 10 ^ k).num.toNat
      toString (n / 10 ^ k) ++ "." ++ padLeftZeros (toString (n % 10 ^ k)) k
    | none => toString q.num ++ "/" ++ toString q.den

/-- JavaScript number-to-string conversion (template interpolation
`${num}`) for the rationals produced by `jsNumber`. -/
def jsNumToString (q : ℚ) : String :=
  if q < 0 then "-" ++ jsNumToStringNonneg (-q) else jsNumToStringNonneg q

/-! ### Result formatter (`toJapaneseResult`, src/main.ts lines 140–161) -/

/-- `toJapaneseResult(reRaw)`: empty input stays empty; otherwise the
input is trimmed, a `B+`/`W+` winner prefix selects the colour, the
margin code `R`/`T`/`F` maps to resignation/time/forfeit wording, a
numeric margin renders as an (integer or half-point) point win, and
everything else — including a winner prefix with a `NaN` margin — falls
back to the trimmed input. -/
def toJapaneseResult (reRaw : String) : String :=
  if reRaw = "" then ""
  else
    let s := trimString reRaw
    let color := if startsWithJS s "B+" then "黒" else if startsWithJS s "W+" then "白" else ""
    if color ≠ "" then
      let rest := dropJS s 2
      if rest = "R" then color ++ "中押し勝ち"
      else if rest = "T" then color ++ "時間切れ勝ち"
      else if rest = "F" then color ++ "反則勝ち"
      else
        match jsNumber rest with
        | none => s
        | some num =>
          if num.den = 1 then color ++ jsNumToString num ++ "目勝ち"
          else if num - ⌊num⌋ = (1 : ℚ) / 2 then color ++ toString ⌊num⌋ ++ "目半勝ち"
          else color ++ jsNumToString num ++ "目勝ち"
    else s

/-! ### Opening-move extractor (src/main.ts lines 191–210)

The source runs the global regex `;([BW])\[([a-z]{0,2})\]` over the raw
text, keeps matches whose coordinate part has exactly two letters,
converts them through `toXY`, and stops after `FUSEKI_MOVES_LIMIT`
accepted moves.  `movesLoop` below performs the same scan directly on
the character list: at each position it attempts the pattern (with the
regex's deterministic backtracking over the `{0,2}` quantifier); a
successful match resumes after the consumed characters, a failed
attempt advances one character.  The fuel argument (instantiated with
`length + 1`) bounds the iterations; every iteration consumes at least
one input character, so the bound is never reached. -/

/-- One move extracted from the record: 1-based coordinates plus the
colour capture (`'B'` or `'W'`). -/
structure OpeningMove where
  x : Int
  y : Int
  color : Char
deriving DecidableEq, Repr

/-- Character class `[a-z]` of the coordinate capture. -/
def isLowerAZ (c : Char) : Bool :=
  97 ≤ c.toNat && c.toNat ≤ 122

/-- `toXY(cc)` of the source: reject values shorter than two characters,
map each letter to its 1-based alphabetic index via `charCodeAt - 96`,
reject non-positive axes. -/
def toXY (cc : List Char) : Option (Int × Int) :=
  if cc.length < 2 then none
  else
    let x : Int := ((cc.headD ' ').toNat : Int) - 96
    let y : Int := (((cc.drop 1).headD ' ').toNat : Int) - 96
    if x ≤ 0 || y ≤ 0 then none else some (x, y)

/-- `FUSEKI_MOVES_LIMIT` of the generated code: only the first 7 accepted
moves are retained. -/
def FUSEKI_MOVES_LIMIT : Nat := 7

/-- One attempt of the regex `;([BW])\\[([a-z]{0,2})\\]` at a position whose
character is `;` (already consumed by the caller): colour capture,
coordinate capture (0–2 lowercase letters, with the regex's
deterministic backtracking over the greedy `{0,2}` quantifier), and the
input remaining after the match; `none` when the attempt fails. -/
def tryMoveMatch (rest : List Char) : Option (Char × List Char × List Char) :=
  match rest with
  | b :: '[' :: r =>
    if b == 'B' || b == 'W' then
      match r with
      | a1 :: a2 :: a3 :: r5 =>
        if isLowerAZ a1 && isLowerAZ a2 then
          if a3 == ']' then some (b, [a1, a2], r5) else none
        else if isLowerAZ a1 && a2 == ']' then some (b, [a1], a3 :: r5)
        else if a1 == ']' then some (b, [], a2 :: a3 :: r5)
        else none
      | [a1, a2] =>
        if isLowerAZ a1 && a2 == ']' then some (b, [a1], [])
        else if a1 == ']' then some (b, [], [a2])
        else none
      | [a1] => if a1 == ']' then some (b, [], []) else none
      | [] => none
    else none
  | _ => none

/-- Scanning loop of the opening-move extraction: repeated
`;([BW])\\[([a-z]{0,2})\\]` matching with a cap of `FUSEKI_MOVES_LIMIT`
accepted moves.  A successful match resumes after its last character; a
two-letter coordinate goes through `toXY` (the `c.length === 2` test of
the source) and, when accepted, is counted; a failed attempt advances a
single character.  The fuel argument bounds the iterations; each
iteration consumes at least one character, so `length + 1` fuel is never
exhausted. -/
def movesLoop : Nat → List Char → Nat → List OpeningMove
  | 0, _, _ => []
  | _, [], _ => []
  | fuel + 1, c :: rest, count =>
    if FUSEKI_MOVES_LIMIT ≤ count then []
    else if c == ';' then
      match tryMoveMatch rest with
      | some (b, cc, rem) =>
        if cc.length = 2 then
          match toXY cc with
          | some (x, y) => { x := x, y := y, color := b } :: movesLoop fuel rem (count + 1)
          | none => movesLoop fuel rem count
        else movesLoop fuel rem count
      | none => movesLoop fuel rest count
    else movesLoop fuel rest count

/-- Opening-move extraction over a raw record text (the `moves` array of
the source). -/
def extractOpeningMoves (src : String) : List OpeningMove :=
  movesLoop (src.data.length + 1) src.data 0

/-! ### Opening-pattern matcher (src/main.ts lines 168–177 and 221–228) -/

/-- One configured pattern coordinate (`fusekiPairs` entry, 1-based). -/
structure FusekiCoord where
  x : Int
  y : Int
deriving DecidableEq, Repr

/-- One entry of `FUSEKI_GROUPS`: a pattern name with its grouped
coordinates. -/
structure FusekiGroup where
  name : String
  coords : List FusekiCoord
deriving DecidableEq

/-- `hasSameColorAll(color)` of the source: every coordinate of the
group occurs in `moves` with the given colour. -/
def hasSameColorAll (moves : List OpeningMove) (coords : List FusekiCoord) (color : Char) : Bool :=
  coords.all (fun c => moves.any (fun m => m.color == color && m.x == c.x && m.y == c.y))

/-- Match test of the source: `hasSameColorAll("B") || hasSameColorAll("W")`. -/
def fusekiGroupMatches (g : FusekiGroup) (moves : List OpeningMove) : Bool :=
  hasSameColorAll moves g.coords 'B' || hasSameColorAll moves g.coords 'W'

/-- `matchedFusekiNames` of the source: names of the groups the move
sequence matches, in configuration order. -/
def matchedFusekiNames (groups : List FusekiGroup) (moves : List OpeningMove) : List String :=
  (groups.filter (fun g => fusekiGroupMatches g moves)).map (fun g => g.name)

/-- Colour flip of a single extracted move (the operation quantified over
in the monochrome-invariant claim; both occurring colours are `'B'` and
`'W'`). -/
def flipMove (m : OpeningMove) : OpeningMove :=
  { m with color := if m.color = 'B' then 'W' else 'B' }

/-! ### Branch-point scanner (`getBranchMoves`, src/main.ts lines 255–302)

The source walks the raw text with an index `i`, a running move counter,
a stack of move counts pushed at `(` and popped at `)` (where popping an
empty JavaScript array is a silent no-op), and an output list that
receives the stack top at every `(` that leaves more than one frame on
the stack.  `;` followed by `B[` or `W[` increments the counter; `[`
skips to the matching `]` (or advances one character when the bracket is
unterminated).  `branchStep` is one loop iteration; `runBranchScan`
iterates it with fuel `length`, which suffices because every iteration
strictly increases `i` (proved below) and the loop exits once
`i ≥ length`. -/

/-- Loop state of `getBranchMoves`: index, move counter, branch stack
(head = top), emitted branch move numbers. -/
structure BState where
  i : Nat
  currentMove : Nat
  stack : List Nat
  moves : List Nat
deriving DecidableEq, Repr

/-- One iteration of the `getBranchMoves` scanning loop. -/
def branchStep (sgf : List Char) (st : BState) : BState :=
  let char := sgf.getD st.i ' '
  if char == '(' then
    let stack' := st.currentMove :: st.stack
    let moves' := if 1 < stack'.length then st.moves ++ [st.currentMove] else st.moves
    { i := st.i + 1, currentMove := st.currentMove, stack := stack', moves := moves' }
  else if char == ')' then
    { st with i := st.i + 1, stack := st.stack.tail }
  else if char == ';' then
    let c1 := sgf.getD (st.i + 1) ' '
    let c2 := sgf.getD (st.i + 2) ' '
    if (c1 == 'B' || c1 == 'W') && c2 == '[' then
      { st with i := st.i + 1, currentMove := st.currentMove + 1 }
    else { st with i := st.i + 1 }
  else if char == '[' then
    match (sgf.drop st.i).findIdx? (fun ch => ch == ']') with
    | some k => { st with i := st.i + k + 1 }
    | none => { st with i := st.i + 1 }
  else { st with i := st.i + 1 }

/-- Iterated scanning loop (`while (i < sgf.length)`), with fuel. -/
def runBranchScan (sgf : List Char) : Nat → BState → BState
  | 0, st => st
  | fuel + 1, st =>
    if st.i < sgf.length then runBranchScan sgf fuel (branchStep sgf st) else st

/-- `getBranchMoves(sgf)` of the source: the emitted branch move
numbers after scanning the whole text. -/
def getBranchMoves (s : String) : List Nat :=
  (runBranchScan s.data s.data.length ⟨0, 0, [], []⟩).moves

/-! ### Note materializer (src/main.ts lines 230–251 and 304–329)

The vault is the note-store collaborator: an association of paths to
contents.  `create` on an existing path throws in Obsidian and the
source swallows the error, so it is a no-op here; `modify` replaces the
stored content.  Each upsert reports the number of write operations
(creates plus modifies) it performed. -/

/-- Note store: path–content associations. -/
structure Vault where
  files : List (String × String)
deriving DecidableEq

/-- `vault.getAbstractFileByPath` plus `vault.read`: stored content of a
path, when present. -/
def vaultGet (v : Vault) (p : String) : Option String :=
  (v.files.find? (fun e => e.1 == p)).map (fun e => e.2)

/-- `vault.create(path, text)` with the source's swallowed failure on an
existing path. -/
def vaultCreate (v : Vault) (p c : String) : Vault :=
  if (vaultGet v p).isSome then v else ⟨(p, c) :: v.files⟩

/-- `vault.modify(file, text)`: replace the content stored at the path. -/
def vaultModify (v : Vault) (p c : String) : Vault :=
  ⟨v.files.map (fun e => if e.1 == p then (p, c) else e)⟩

/-- `noteContent` of the source: the raw record text, trimmed, in a
fenced `sgf` block. -/
def noteContent (src : String) : String :=
  "```sgf\n" ++ trimString src ++ "\n```"

/-- `reviewContent` of the source: one `### 検討n` section per branch
move number, embedding the record parameterized by that move, separated
by horizontal rules. -/
def reviewContent (fname : String) (branchMoveNumbers : List Nat) : String :=
  String.intercalate "\n\n---\n\n"
    (branchMoveNumbers.enum.map
      (fun e => "### 検討" ++ toString (e.1 + 1) ++ "\n![[" ++ fname ++ "|move=" ++ toString e.2 ++ "]]"))

/-- Shared upsert logic of both note writes: create when absent,
otherwise read and rewrite only when the computed content differs.
Returns the updated vault and the number of writes performed. -/
def upsertNote (v : Vault) (path content : String) : Vault × Nat :=
  match vaultGet v path with
  | none => (vaultCreate v path content, 1)
  | some existing => if existing == content then (v, 0) else (vaultModify v path content, 1)

/-- Game-note materialization for one record. -/
def materializeGameNote (src notePath : String) (v : Vault) : Vault × Nat :=
  upsertNote v notePath (noteContent src)

/-- Review-note materialization for one record with branches. -/
def materializeReviewNote (fname : String) (nums : List Nat) (reviewPath : String) (v : Vault) : Vault × Nat :=
  upsertNote v reviewPath (reviewContent fname nums)

/-! ### Statistics aggregator (`updateDisplay`, src/main.ts lines 452–466) -/

/-- The per-record fields the summary loop reads. -/
structure GameRec where
  reRaw : String
  matchedFusekiNames : List String
deriving DecidableEq

/-- One `{total, blackWins, whiteWins}` accumulator. -/
structure SummaryStats where
  total : Nat
  bWins : Nat
  wWins : Nat
deriving DecidableEq, Repr

/-- Overall-summary body of the loop: `total++`, then `bWins++` when the
raw result starts with `B+`, else `wWins++` when it starts with `W+`. -/
def overallStep (s : SummaryStats) (d : GameRec) : SummaryStats :=
  { total := s.total + 1,
    bWins := if startsWithJS d.reRaw "B+" then s.bWins + 1 else s.bWins,
    wWins := if startsWithJS d.reRaw "B+" then s.wWins
             else if startsWithJS d.reRaw "W+" then s.wWins + 1 else s.wWins }

/-- Overall summary over the filtered record list. -/
def aggregateOverall (rs : List GameRec) : SummaryStats :=
  rs.foldl overallStep ⟨0, 0, 0⟩

/-- Per-pattern bump performed for each occurrence of the pattern name in
a record's matched names (same win test as the overall loop). -/
def patternBump (d : GameRec) (s : SummaryStats) : SummaryStats :=
  { total := s.total + 1,
    bWins := if startsWithJS d.reRaw "B+" then s.bWins + 1 else s.bWins,
    wWins := if startsWithJS d.reRaw "B+" then s.wWins
             else if startsWithJS d.reRaw "W+" then s.wWins + 1 else s.wWins }

/-- Inner loop `for (const fname of d.matchedFusekiNames)` restricted to
one pattern name's accumulator (`fStats[name]`). -/
def patternStep (name : String) (s : SummaryStats) (d : GameRec) : SummaryStats :=
  d.matchedFusekiNames.foldl (fun s2 fname => if fname == name then patternBump d s2 else s2) s

/-- Per-pattern summary for one pattern name over the filtered records. -/
def aggregatePattern (name : String) (rs : List GameRec) : SummaryStats :=
  rs.foldl (patternStep name) ⟨0, 0, 0⟩

/-! ### View controller paging state (src/main.ts lines 402–528)

`pageSize`/`currentPage` are the mutable view state; `updateDisplay`
recomputes `totalPages = Math.max(1, Math.ceil(totalItems / pageSize))`
and clamps `currentPage` into `[1, totalPages]`.  Each UI event mutates
the state and reruns `updateDisplay`; the filtered item count is passed
in as a parameter. -/

/-- Paging state of the view controller. -/
structure ViewState where
  pageSize : Nat
  currentPage : Nat
deriving DecidableEq, Repr

/-- `Math.max(1, Math.ceil(totalItems / pageSize))` — for a positive
natural page size the real-number ceiling equals the natural-number
expression `(count + pageSize - 1) / pageSize` (proved below). -/
def totalPagesOf (count pageSize : Nat) : Nat :=
  max 1 ((count + pageSize - 1) / pageSize)

/-- The clamping portion of `updateDisplay`: recompute `totalPages`, pull
`currentPage` down to it, then up to 1. -/
def updateDisplayClamp (count : Nat) (st : ViewState) : ViewState :=
  let totalPages := totalPagesOf count st.pageSize
  let cp1 := if totalPages < st.currentPage then totalPages else st.currentPage
  let cp2 := if cp1 < 1 then 1 else cp1
  { st with currentPage := cp2 }

/-- Keyword input event: reset to page 1 and redisplay. -/
def setKeyword (count : Nat) (st : ViewState) : ViewState :=
  updateDisplayClamp count { st with currentPage := 1 }

/-- Handicap-filter change event: reset to page 1 and redisplay. -/
def setHandicapFilter (count : Nat) (st : ViewState) : ViewState :=
  updateDisplayClamp count { st with currentPage := 1 }

/-- Page-size change event: `parseInt(value, 10) || 10` (the `none` case
models a `NaN` parse), reset to page 1, redisplay.  The select only
offers 10/20/50/100. -/
def setPageSize (count : Nat) (parsed : Option Nat) (_st : ViewState) : ViewState :=
  let ps := match parsed with
    | some n => if n = 0 then 10 else n
    | none => 10
  updateDisplayClamp count { pageSize := ps, currentPage := 1 }

/-- Previous-page click: guarded decrement, then redisplay; no redisplay
at all when already on page 1. -/
def prevPage (count : Nat) (st : ViewState) : ViewState :=
  if 1 < st.currentPage then updateDisplayClamp count { st with currentPage := st.currentPage - 1 }
  else st

/-- Next-page click: unguarded increment, then redisplay (the clamp pulls
an overshoot back to the last page; the button is disabled there). -/
def nextPage (count : Nat) (st : ViewState) : ViewState :=
  updateDisplayClamp count { st with currentPage := st.currentPage + 1 }

/-! ### Percentage helper (`pct`, src/main.ts line 341) -/

/-- JavaScript `Math.round` for the non-negative quotients the helper
produces: floor of the value plus one half. -/
def jsRound (q : ℚ) : ℤ :=
  ⌊q + 1 / 2⌋

/-- `(k / 10).toFixed(1)` for the non-negative integer `k` that
`Math.round` returned: the quotient has an exact one-decimal
representation, printed as integer part, dot, tenths digit.  (For these
magnitudes the double value of `k / 10` converts back to exactly this
string.) -/
def renderTenths (k : ℤ) : String :=
  toString (k / 10) ++ "." ++ toString (k % 10)

/-- `pct(n, d)` of the source:
`d ? (Math.round((n * 1000) / d) / 10).toFixed(1) : "0.0"`. -/
def pct (n d : Nat) : String :=
  if d = 0 then "0.0" else renderTenths (jsRound ((n * 1000 : ℚ) / (d : ℚ)))

/-! ## Helper lemmas -/

theorem dropWhile_dropWhile_eq (p : α → Bool) (l : List α) :
    (l.dropWhile p).dropWhile p = l.dropWhile p := by
  cases h : l.dropWhile p with
  | nil => simp
  | cons a t =>
    have ha := List.head?_dropWhile_not p l
    rw [h] at ha
    simp only [List.head?_cons] at ha
    simp [List.dropWhile_cons, ha]

theorem dropWhile_eq_self_of_prefix (p : α → Bool) {l l' : List α}
    (h : l' <+: l) (hl : l.dropWhile p = l) : l'.dropWhile p = l' := by
  cases l' with
  | nil => simp
  | cons a t =>
    have ha : p a = false := by
      obtain ⟨s, rfl⟩ := h
      by_contra hpa
      have hpa' : p a = true := by simpa using hpa
      rw [List.cons_append, List.dropWhile_cons] at hl
      simp only [hpa', if_true] at hl
      have h1 := congrArg List.length hl
      have h2 := (List.dropWhile_suffix (l := t ++ s) p).length_le
      simp only [List.length_cons, List.length_append] at h1 h2
      omega
    simp [List.dropWhile_cons, ha]

theorem trimJS_trimJS (l : List Char) : trimJS (trimJS l) = trimJS l := by
  unfold trimJS
  have hA : (l.dropWhile isJsSpace).dropWhile isJsSpace = l.dropWhile isJsSpace :=
    dropWhile_dropWhile_eq _ _
  have hpref :
      ((l.dropWhile isJsSpace).reverse.dropWhile isJsSpace).reverse <+: l.dropWhile isJsSpace := by
    rw [← List.reverse_suffix]
    simpa using List.dropWhile_suffix (l := (l.dropWhile isJsSpace).reverse) isJsSpace
  have h3 :
      (((l.dropWhile isJsSpace).reverse.dropWhile isJsSpace).reverse).dropWhile isJsSpace =
        ((l.dropWhile isJsSpace).reverse.dropWhile isJsSpace).reverse :=
    dropWhile_eq_self_of_prefix _ hpref hA
  rw [h3]
  rw [List.reverse_reverse]
  rw [dropWhile_dropWhile_eq]

theorem matchKeyAt_key_isPrefixOf {s key : List Char} {v : List Char}
    (h : matchKeyAt s key = some v) : key.isPrefixOf s = true := by
  by_cases hp : key.isPrefixOf s
  · exact hp
  · rw [matchKeyAt, if_neg hp] at h
    exact absurd h (by simp)

theorem tagScan_key_occurs {key : List Char} :
    ∀ {l v : List Char}, tagScan key l = some v → key <:+: l := by
  intro l
  induction l with
  | nil => intro v h; rw [tagScan] at h; exact absurd h (by simp)
  | cons c rest ih =>
    intro v h
    rw [tagScan] at h
    by_cases hb : isTagBoundary c
    · rw [if_pos hb] at h
      cases hm : matchKeyAt rest key with
      | some w =>
        have hpre : key <+: rest := List.isPrefixOf_iff_prefix.mp (matchKeyAt_key_isPrefixOf hm)
        exact List.infix_cons hpre.isInfix
      | none =>
        rw [hm] at h
        exact List.infix_cons (ih h)
    · rw [if_neg hb] at h
      exact List.infix_cons (ih h)

theorem string_mk_data (l : List Char) : (⟨l⟩ : String).data = l := rfl

theorem toString_int_nonneg (k : ℤ) (h : 0 ≤ k) : toString k = toString k.toNat := by
  cases k with
  | ofNat n => rfl
  | negSucc n => exact absurd h (by simp)

theorem vaultGet_create_self (v : Vault) (p c : String) (h : vaultGet v p = none) :
    vaultGet (vaultCreate v p c) p = some c := by
  rw [vaultCreate, h]
  simp [vaultGet, List.find?]

theorem upsertNote_roundtrip (v : Vault) (path content : String)
    (h : vaultGet v path = none) :
    (upsertNote v path content).2 = 1 ∧
    (upsertNote (upsertNote v path content).1 path content).2 = 0 ∧
    (upsertNote (upsertNote v path content).1 path content).1 = (upsertNote v path content).1 := by
  have h1 : upsertNote v path content = (vaultCreate v path content, 1) := by
    rw [upsertNote, h]
  have h2 : upsertNote (vaultCreate v path content) path content = (vaultCreate v path content, 0) := by
    rw [upsertNote, vaultGet_create_self v path content h]
    simp
  rw [h1, h2]
  exact ⟨rfl, rfl, rfl⟩

/-! ## Claim theorems -/

/-- C3 (counterexample): `extractTag` is not idempotent.  Extracting `SZ`
from `"(;SZ[19])"` yields `"19"`, but applying `extractTag` with the
same key to that output yields `""`, not the output itself. -/
theorem extractTag_not_idempotent_counterexample :
    tag "(;SZ[19])" "SZ" = "19" ∧ tag (tag "(;SZ[19])" "SZ") "SZ" ≠ tag "(;SZ[19])" "SZ" := by
  decide

/-- C3 (amended): for every raw text and key, `extractTag` returns `""`
whenever the key does not occur in the text at all — regardless of
unrelated bracket content elsewhere — and its output is already trimmed,
so trimming the output returns it unchanged (the sense in which
re-processing the output is stable; genuine idempotence fails, see the
counterexample). -/
theorem extractTag_absent_and_trimmed : ∀ src key : String,
    (¬ (key.data <:+: src.data) → tag src key = "") ∧
    trimString (tag src key) = tag src key := by
  intro src key
  constructor
  · intro habs
    rw [tag]
    cases hm : matchKeyAt src.data key.data with
    | some v =>
      exact absurd (List.isPrefixOf_iff_prefix.mp (matchKeyAt_key_isPrefixOf hm)).isInfix habs
    | none =>
      cases hs : tagScan key.data src.data with
      | some v => exact absurd (tagScan_key_occurs hs) habs
      | none => rfl
  · rw [tag]
    cases hm : matchKeyAt src.data key.data with
    | some v =>
      show trimString ⟨trimJS v⟩ = ⟨trimJS v⟩
      rw [trimString, string_mk_data, trimJS_trimJS]
    | none =>
      cases hs : tagScan key.data src.data with
      | some v =>
        show trimString ⟨trimJS v⟩ = ⟨trimJS v⟩
        rw [trimString, string_mk_data, trimJS_trimJS]
      | none => decide

/-- C3 (witness): the amended theorem applied at concrete inputs — the
key `SZ` is absent from `"PB[x]"` so extraction yields `""`, and the
value extracted from `"(;SZ[ 19 ])"` is its own trim. -/
theorem extractTag_absent_and_trimmed_witness :
    tag "PB[x]" "SZ" = "" ∧
    trimString (tag "(;SZ[ 19 ])" "SZ") = tag "(;SZ[ 19 ])" "SZ" :=
  ⟨(extractTag_absent_and_trimmed "PB[x]" "SZ").1 (by decide),
   (extractTag_absent_and_trimmed "(;SZ[ 19 ])" "SZ").2⟩

/-- C4 (counterexample): an input that does not match a recognized winner
prefix is **not** returned as received — the formatter trims it.  On
`" x "` the formatter returns `"x"`, not the input verbatim. -/
theorem formatResult_not_verbatim_counterexample :
    toJapaneseResult " x " ≠ " x " ∧ toJapaneseResult " x " = "x" := by
  decide

/-- C4 (amended): the empty string stays empty, and every input whose
trimmed form does not start with a recognized winner prefix (`B+` or
`W+`) is returned *trimmed* — the fallback returns the input as received
only up to whitespace trimming.  No error is ever raised: the embedded
formatter is a total function. -/
theorem formatResult_fallback_amended : ∀ s : String,
    (s = "" → toJapaneseResult s = "") ∧
    (s ≠ "" → startsWithJS (trimString s) "B+" = false →
      startsWithJS (trimString s) "W+" = false → toJapaneseResult s = trimString s) := by
  intro s
  constructor
  · intro h
    rw [toJapaneseResult, if_pos h]
  · intro h1 h2 h3
    rw [toJapaneseResult, if_neg h1]
    simp only [h2, h3, if_false]
    simp

/-- C4 (witness): the amended theorem applied at `""` and at `" draw "`
(trimmed fallback). -/
theorem formatResult_fallback_amended_witness :
    toJapaneseResult "" = "" ∧ toJapaneseResult " draw " = trimString " draw " :=
  ⟨(formatResult_fallback_amended "").1 rfl,
   (formatResult_fallback_amended " draw ").2 (by decide) (by decide) (by decide)⟩

/-- C7: running the note materializer on a record whose raw text is
unchanged performs exactly one write for the game note (its creation,
when the note is absent) on the first run and zero writes on the second
run, leaving the store untouched; the review note obeys the same
create-else-diff-then-modify rule. -/
theorem note_materializer_idempotent :
    ∀ (src notePath fname : String) (nums : List Nat) (reviewPath : String) (v w : Vault),
    (vaultGet v notePath = none →
      (materializeGameNote src notePath v).2 = 1 ∧
      (materializeGameNote src notePath (materializeGameNote src notePath v).1).2 = 0 ∧
      (materializeGameNote src notePath (materializeGameNote src notePath v).1).1 =
        (materializeGameNote src notePath v).1) ∧
    (vaultGet w reviewPath = none →
      (materializeReviewNote fname nums reviewPath w).2 = 1 ∧
      (materializeReviewNote fname nums reviewPath (materializeReviewNote fname nums reviewPath w).1).2 = 0 ∧
      (materializeReviewNote fname nums reviewPath (materializeReviewNote fname nums reviewPath w).1).1 =
        (materializeReviewNote fname nums reviewPath w).1) := by
  intro src notePath fname nums reviewPath v w
  constructor
  · intro h
    exact upsertNote_roundtrip v notePath (noteContent src) h
  · intro h
    exact upsertNote_roundtrip w reviewPath (reviewContent fname nums) h

/-- C7 (witness): the round-trip applied to an empty store, a sample
record, and a sample branch list. -/
theorem note_materializer_idempotent_witness :
    (materializeGameNote "(;GM[1])" "対局ノート/g.md" ⟨[]⟩).2 = 1 ∧
    (materializeGameNote "(;GM[1])" "対局ノート/g.md"
      (materializeGameNote "(;GM[1])" "対局ノート/g.md" ⟨[]⟩).1).2 = 0 ∧
    (materializeReviewNote "g.sgf" [3, 5] "検討/g.md" ⟨[]⟩).2 = 1 ∧
    (materializeReviewNote "g.sgf" [3, 5] "検討/g.md"
      (materializeReviewNote "g.sgf" [3, 5] "検討/g.md" ⟨[]⟩).1).2 = 0 := by
  refine ⟨?_, ?_, ?_, ?_⟩
  · exact ((note_materializer_idempotent "(;GM[1])" "対局ノート/g.md" "g.sgf" [3, 5] "検討/g.md" ⟨[]⟩ ⟨[]⟩).1 rfl).1
  · exact ((note_materializer_idempotent "(;GM[1])" "対局ノート/g.md" "g.sgf" [3, 5] "検討/g.md" ⟨[]⟩ ⟨[]⟩).1 rfl).2.1
  · exact ((note_materializer_idempotent "(;GM[1])" "対局ノート/g.md" "g.sgf" [3, 5] "検討/g.md" ⟨[]⟩ ⟨[]⟩).2 rfl).1
  · exact ((note_materializer_idempotent "(;GM[1])" "対局ノート/g.md" "g.sgf" [3, 5] "検討/g.md" ⟨[]⟩ ⟨[]⟩).2 rfl).2.1

/-- C8: the percentage helper returns `"0.0"` when the total is zero
(no division by zero), otherwise renders
`round(wins * 1000 / total) / 10`; the output always consists of an
integer part, a dot, and exactly one decimal digit; and one win out of
two renders as `"50.0"`. -/
theorem pct_one_decimal : ∀ n d : Nat,
    (d = 0 → pct n d = "0.0") ∧
    (d ≠ 0 → pct n d = renderTenths (jsRound ((n * 1000 : ℚ) / (d : ℚ)))) ∧
    (∃ a b : ℕ, b < 10 ∧ pct n d = toString a ++ "." ++ toString b) ∧
    pct 1 2 = "50.0" := by
  intro n d
  have h50 : pct 1 2 = "50.0" := by
    have hfl : jsRound (((1 : ℕ) : ℚ) * 1000 / ((2 : ℕ) : ℚ)) = (500 : ℤ) := by
      rw [jsRound]; norm_num
    rw [pct, if_neg (by norm_num), hfl]
    decide
  refine ⟨fun h => by rw [pct, if_pos h], fun h => by rw [pct, if_neg h], ?_, h50⟩
  by_cases h : d = 0
  · exact ⟨0, 0, by norm_num, by rw [pct, if_pos h]; decide⟩
  · have hq : (0 : ℚ) ≤ (n * 1000 : ℚ) / (d : ℚ) := by positivity
    have hk : 0 ≤ jsRound ((n * 1000 : ℚ) / (d : ℚ)) := by
      rw [jsRound]
      exact Int.floor_nonneg.mpr (by linarith)
    set k := jsRound ((n * 1000 : ℚ) / (d : ℚ)) with hkdef
    have hdiv : 0 ≤ k / 10 := Int.ediv_nonneg hk (by norm_num)
    have hmod0 : 0 ≤ k % 10 := Int.emod_nonneg k (by norm_num)
    have hmod10 : k % 10 < 10 := Int.emod_lt_of_pos k (by norm_num)
    refine ⟨(k / 10).toNat, (k % 10).toNat, by omega, ?_⟩
    rw [pct, if_neg h, renderTenths, ← hkdef,
      toString_int_nonneg _ hdiv, toString_int_nonneg _ hmod0]

/-- C8 (witness): the theorem applied at `n = 1`, `d = 2` and at a zero
total. -/
theorem pct_one_decimal_witness :
    pct 1 2 = "50.0" ∧ pct 3 0 = "0.0" :=
  ⟨(pct_one_decimal 1 2).2.2.2, (pct_one_decimal 3 0).1 rfl⟩

theorem foldl_overallStep_total (rs : List GameRec) :
    ∀ s : SummaryStats, (rs.foldl overallStep s).total = s.total + rs.length := by
  induction rs with
  | nil => intro s; simp
  | cons d t ih =>
    intro s
    rw [List.foldl_cons, ih]
    simp only [overallStep, List.length_cons]
    omega

theorem foldl_overallStep_wins (rs : List GameRec) :
    ∀ s : SummaryStats,
      (rs.foldl overallStep s).bWins + (rs.foldl overallStep s).wWins ≤
        s.bWins + s.wWins + rs.length := by
  induction rs with
  | nil => intro s; simp
  | cons d t ih =>
    intro s
    rw [List.foldl_cons]
    have hstep : (overallStep s d).bWins + (overallStep s d).wWins ≤ s.bWins + s.wWins + 1 := by
      simp only [overallStep]
      split_ifs <;> omega
    have := ih (overallStep s d)
    have htot : (overallStep s d).total = s.total + 1 := rfl
    simp only [List.length_cons]
    omega

theorem patternStep_preserves (name : String) (d : GameRec) :
    ∀ (ns : List String) (s : SummaryStats), s.bWins + s.wWins ≤ s.total →
      (ns.foldl (fun s2 fname => if fname == name then patternBump d s2 else s2) s).bWins +
        (ns.foldl (fun s2 fname => if fname == name then patternBump d s2 else s2) s).wWins ≤
        (ns.foldl (fun s2 fname => if fname == name then patternBump d s2 else s2) s).total := by
  intro ns
  induction ns with
  | nil => intro s h; simpa using h
  | cons f t ih =>
    intro s h
    rw [List.foldl_cons]
    by_cases hf : f == name
    · rw [if_pos hf]
      apply ih
      simp only [patternBump]
      split_ifs <;> omega
    · rw [if_neg hf]
      exact ih s h

theorem patternStep_total (name : String) (d : GameRec) :
    ∀ (ns : List String) (s : SummaryStats),
      (ns.foldl (fun s2 fname => if fname == name then patternBump d s2 else s2) s).total =
        s.total + ns.count name := by
  intro ns
  induction ns with
  | nil => intro s; simp
  | cons f t ih =>
    intro s
    rw [List.foldl_cons, List.count_cons]
    by_cases hf : f == name
    · rw [if_pos hf, ih]
      have : (patternBump d s).total = s.total + 1 := rfl
      simp [hf, this]
      omega
    · rw [if_neg hf, ih]
      simp [hf]

theorem aggregatePattern_wins_le (name : String) (rs : List GameRec) :
    ∀ s : SummaryStats, s.bWins + s.wWins ≤ s.total →
      (rs.foldl (patternStep name) s).bWins + (rs.foldl (patternStep name) s).wWins ≤
        (rs.foldl (patternStep name) s).total := by
  induction rs with
  | nil => intro s h; simpa using h
  | cons d t ih =>
    intro s h
    rw [List.foldl_cons]
    exact ih _ (patternStep_preserves name d _ s h)

theorem aggregatePattern_total_le (name : String) (rs : List GameRec)
    (hnd : ∀ d ∈ rs, d.matchedFusekiNames.Nodup) :
    ∀ s : SummaryStats, (rs.foldl (patternStep name) s).total ≤ s.total + rs.length := by
  induction rs with
  | nil => intro s; simp
  | cons d t ih =>
    intro s
    rw [List.foldl_cons]
    have hcnt : d.matchedFusekiNames.count name ≤ 1 :=
      List.nodup_iff_count_le_one.mp (hnd d (by simp)) name
    have hstep : (patternStep name s d).total ≤ s.total + 1 := by
      rw [patternStep, patternStep_total]
      omega
    have := ih (fun d' hd' => hnd d' (by simp [hd'])) (patternStep name s d)
    simp only [List.length_cons]
    omega

/-- C5: over every record list, the aggregator's overall `total` equals
the number of records, `blackWins + whiteWins ≤ total` holds, and for
every pattern name the per-pattern counters satisfy the same inequality
with the per-pattern total never exceeding the overall total.  (The
hypothesis that each record's matched-name list has no duplicates holds
for every record the indexer builds, because `FUSEKI_GROUPS` is keyed by
name.) -/
theorem aggregate_stats_invariants (rs : List GameRec)
    (hnd : ∀ d ∈ rs, d.matchedFusekiNames.Nodup) :
    (aggregateOverall rs).total = rs.length ∧
    (aggregateOverall rs).bWins + (aggregateOverall rs).wWins ≤ (aggregateOverall rs).total ∧
    ∀ name : String,
      (aggregatePattern name rs).bWins + (aggregatePattern name rs).wWins ≤
        (aggregatePattern name rs).total ∧
      (aggregatePattern name rs).total ≤ (aggregateOverall rs).total := by
  refine ⟨?_, ?_, fun name => ⟨?_, ?_⟩⟩
  · rw [aggregateOverall, foldl_overallStep_total]
    simp
  · rw [aggregateOverall]
    have h1 := foldl_overallStep_wins rs ⟨0, 0, 0⟩
    have h2 := foldl_overallStep_total rs ⟨0, 0, 0⟩
    simp only at h1 h2
    omega
  · exact aggregatePattern_wins_le name rs ⟨0, 0, 0⟩ (by simp)
  · rw [aggregateOverall, foldl_overallStep_total, aggregatePattern]
    have h := aggregatePattern_total_le name rs hnd ⟨0, 0, 0⟩
    simp only at h ⊢
    omega

/-- C5 (witness): the invariants at the two-record corpus of the spec's
end-to-end scenario (`B+R` and `W+2.5`, both matching pattern `星`). -/
theorem aggregate_stats_invariants_witness :
    (aggregateOverall [⟨"B+R", ["星"]⟩, ⟨"W+2.5", ["星"]⟩]).total =
      ([⟨"B+R", ["星"]⟩, ⟨"W+2.5", ["星"]⟩] : List GameRec).length ∧
    (aggregatePattern "星" [⟨"B+R", ["星"]⟩, ⟨"W+2.5", ["星"]⟩]).total ≤
      (aggregateOverall [⟨"B+R", ["星"]⟩, ⟨"W+2.5", ["星"]⟩]).total :=
  ⟨(aggregate_stats_invariants [⟨"B+R", ["星"]⟩, ⟨"W+2.5", ["星"]⟩] (by decide)).1,
   ((aggregate_stats_invariants [⟨"B+R", ["星"]⟩, ⟨"W+2.5", ["星"]⟩] (by decide)).2.2 "星").2⟩

theorem ceil_div_eq_natDiv (a b : ℕ) (hb : 0 < b) :
    ⌈(a : ℚ) / (b : ℚ)⌉ = (((a + b - 1) / b : ℕ) : ℤ) := by
  have hb' : (0 : ℚ) < (b : ℚ) := by exact_mod_cast hb
  have hdm : b * ((a + b - 1) / b) + (a + b - 1) % b = a + b - 1 := Nat.div_add_mod _ _
  have hr : (a + b - 1) % b < b := Nat.mod_lt _ hb
  rw [Nat.mul_comm] at hdm
  set q := (a + b - 1) / b with hqdef
  set M := q * b with hM
  have h1 : a ≤ M := by omega
  have h2 : M < a + b := by omega
  have hMc : (M : ℚ) = (q : ℚ) * (b : ℚ) := by rw [hM]; push_cast; ring
  rw [Int.ceil_eq_iff]
  constructor
  · have hx : ((q : ℚ) - 1) * (b : ℚ) < (a : ℚ) := by
      have h2' : (M : ℚ) < (a : ℚ) + (b : ℚ) := by exact_mod_cast h2
      rw [hMc] at h2'
      nlinarith
    have := (lt_div_iff₀ hb').mpr hx
    push_cast
    linarith
  · have hx : (a : ℚ) ≤ (q : ℚ) * (b : ℚ) := by
      have h1' : (a : ℚ) ≤ (M : ℚ) := by exact_mod_cast h1
      rwa [hMc] at h1'
    have := (div_le_iff₀ hb').mpr hx
    push_cast
    linarith

theorem updateDisplayClamp_range (count : Nat) (st : ViewState) :
    1 ≤ (updateDisplayClamp count st).currentPage ∧
    (updateDisplayClamp count st).currentPage ≤ totalPagesOf count st.pageSize ∧
    (updateDisplayClamp count st).pageSize = st.pageSize := by
  have h1 : 1 ≤ totalPagesOf count st.pageSize := le_max_left 1 _
  rw [updateDisplayClamp]
  dsimp only
  split_ifs <;> (simp_all; try omega)

/-- C6: after every view-controller transition the derived page count is
`max(1, ⌈filteredCount / pageSize⌉)` (the natural-number expression the
embedding uses equals the real-number ceiling for positive page sizes),
`currentPage` lies within `[1, totalPages]`, and `prevPage` at page 1 as
well as `nextPage` at the last page leave the state unchanged. -/
theorem view_controller_invariants :
    (∀ count ps : Nat, 0 < ps →
        (totalPagesOf count ps : ℤ) = max 1 ⌈(count : ℚ) / (ps : ℚ)⌉) ∧
    (∀ (count : Nat) (st : ViewState),
        1 ≤ (setKeyword count st).currentPage ∧
        (setKeyword count st).currentPage ≤
          totalPagesOf count (setKeyword count st).pageSize) ∧
    (∀ (count : Nat) (st : ViewState),
        1 ≤ (setHandicapFilter count st).currentPage ∧
        (setHandicapFilter count st).currentPage ≤
          totalPagesOf count (setHandicapFilter count st).pageSize) ∧
    (∀ (count : Nat) (parsed : Option Nat) (st : ViewState),
        1 ≤ (setPageSize count parsed st).currentPage ∧
        (setPageSize count parsed st).currentPage ≤
          totalPagesOf count (setPageSize count parsed st).pageSize) ∧
    (∀ (count : Nat) (st : ViewState),
        1 ≤ st.currentPage → st.currentPage ≤ totalPagesOf count st.pageSize →
        1 ≤ (prevPage count st).currentPage ∧
        (prevPage count st).currentPage ≤ totalPagesOf count (prevPage count st).pageSize) ∧
    (∀ (count : Nat) (st : ViewState),
        1 ≤ (nextPage count st).currentPage ∧
        (nextPage count st).currentPage ≤ totalPagesOf count (nextPage count st).pageSize) ∧
    (∀ (count : Nat) (st : ViewState), st.currentPage = 1 → prevPage count st = st) ∧
    (∀ (count : Nat) (st : ViewState), st.currentPage = totalPagesOf count st.pageSize →
        nextPage count st = st) := by
  refine ⟨?_, ?_, ?_, ?_, ?_, ?_, ?_, ?_⟩
  · intro count ps hps
    rw [totalPagesOf, ceil_div_eq_natDiv count ps hps]
    rcases le_or_lt ((count + ps - 1) / ps) 1 with h | h
    · rw [Nat.max_eq_left h, max_eq_left (by exact_mod_cast h)]
      norm_num
    · rw [Nat.max_eq_right (by omega), max_eq_right (by exact_mod_cast Nat.le_of_lt h)]
  · intro count st
    have h := updateDisplayClamp_range count { st with currentPage := 1 }
    rw [setKeyword]
    exact ⟨h.1, by rw [h.2.2]; exact h.2.1⟩
  · intro count st
    have h := updateDisplayClamp_range count { st with currentPage := 1 }
    rw [setHandicapFilter]
    exact ⟨h.1, by rw [h.2.2]; exact h.2.1⟩
  · intro count parsed st
    rw [setPageSize.eq_def]
    dsimp only
    have h := updateDisplayClamp_range count
      { pageSize := match parsed with
          | some n => if n = 0 then 10 else n
          | none => 10,
        currentPage := 1 }
    exact ⟨h.1, by rw [h.2.2]; exact h.2.1⟩
  · intro count st h1 h2
    rw [prevPage]
    by_cases hg : 1 < st.currentPage
    · rw [if_pos hg]
      have h := updateDisplayClamp_range count { st with currentPage := st.currentPage - 1 }
      exact ⟨h.1, by rw [h.2.2]; exact h.2.1⟩
    · rw [if_neg hg]
      exact ⟨h1, h2⟩
  · intro count st
    have h := updateDisplayClamp_range count { st with currentPage := st.currentPage + 1 }
    rw [nextPage]
    exact ⟨h.1, by rw [h.2.2]; exact h.2.1⟩
  · intro count st h
    rw [prevPage, if_neg (by omega)]
  · intro count st h
    have htp : 1 ≤ totalPagesOf count st.pageSize := le_max_left 1 _
    cases st with
    | mk ps cp =>
      simp only at h htp
      rw [nextPage, updateDisplayClamp]
      dsimp only
      rw [if_pos (show totalPagesOf count ps < cp + 1 by omega)]
      rw [if_neg (show ¬ totalPagesOf count ps < 1 by omega)]
      simp [h]

/-- C6 (witness): the transition invariants and no-ops applied at a
concrete state (35 filtered records, page size 10, current page 4). -/
theorem view_controller_invariants_witness :
    (totalPagesOf 35 10 : ℤ) = max 1 ⌈(35 : ℚ) / (10 : ℚ)⌉ ∧
    (1 ≤ (prevPage 35 ⟨10, 4⟩).currentPage ∧
      (prevPage 35 ⟨10, 4⟩).currentPage ≤ totalPagesOf 35 (prevPage 35 ⟨10, 4⟩).pageSize) ∧
    prevPage 35 ⟨10, 1⟩ = ⟨10, 1⟩ ∧
    nextPage 35 ⟨10, 4⟩ = ⟨10, 4⟩ :=
  ⟨by
      have h := view_controller_invariants.1 35 10 (by norm_num)
      simpa using h,
   view_controller_invariants.2.2.2.2.1 35 ⟨10, 4⟩ (by norm_num) (by norm_num [totalPagesOf]),
   view_controller_invariants.2.2.2.2.2.2.1 35 ⟨10, 1⟩ rfl,
   view_controller_invariants.2.2.2.2.2.2.2 35 ⟨10, 4⟩ (by norm_num [totalPagesOf])⟩


theorem isLowerAZ_toNat {c : Char} (h : isLowerAZ c = true) :
    97 ≤ c.toNat ∧ c.toNat ≤ 122 := by
  rw [isLowerAZ] at h
  simp at h
  exact h

theorem toXY_two_lower_bounds {a1 a2 : Char} {x y : Int}
    (h1 : isLowerAZ a1 = true) (h2 : isLowerAZ a2 = true)
    (ht : toXY [a1, a2] = some (x, y)) :
    1 ≤ x ∧ x ≤ 26 ∧ 1 ≤ y ∧ y ≤ 26 := by
  obtain ⟨ha1, ha1'⟩ := isLowerAZ_toNat h1
  obtain ⟨ha2, ha2'⟩ := isLowerAZ_toNat h2
  rw [toXY] at ht
  simp only [List.length_cons, List.length_nil] at ht
  rw [if_neg (by omega)] at ht
  dsimp only [List.headD, List.drop] at ht
  by_cases hneg : ((a1.toNat : Int) - 96 ≤ 0 || (a2.toNat : Int) - 96 ≤ 0) = true
  · rw [if_pos hneg] at ht
    exact absurd ht (by simp)
  · rw [if_neg hneg] at ht
    have hx : x = (a1.toNat : Int) - 96 := by
      simp at ht
      omega
    have hy : y = (a2.toNat : Int) - 96 := by
      simp at ht
      omega
    omega

theorem tryMoveMatch_lower {rest : List Char} {b : Char} {cc rem : List Char}
    (h : tryMoveMatch rest = some (b, cc, rem)) :
    ∀ a ∈ cc, isLowerAZ a = true := by
  unfold tryMoveMatch at h
  repeat' split at h
  all_goals try contradiction
  all_goals simp only [Option.some.injEq, Prod.mk.injEq] at h
  all_goals obtain ⟨rfl, rfl, rfl⟩ := h
  all_goals intro a ha
  all_goals simp only [List.mem_cons, List.not_mem_nil, or_false] at ha
  all_goals simp_all [Bool.and_eq_true]
  all_goals rcases ha with rfl | rfl
  all_goals simp_all

theorem movesLoop_coord_bounds :
    ∀ (fuel : Nat) (l : List Char) (count : Nat), ∀ m ∈ movesLoop fuel l count,
      1 ≤ m.x ∧ m.x ≤ 26 ∧ 1 ≤ m.y ∧ m.y ≤ 26 := by
  intro fuel
  induction fuel with
  | zero => intro l count m hm; cases l <;> exact absurd hm (List.not_mem_nil m)
  | succ f ih =>
    intro l count m hm
    cases l with
    | nil => exact absurd hm (List.not_mem_nil m)
    | cons c rest =>
      rw [movesLoop] at hm
      split at hm
      · exact absurd hm (List.not_mem_nil m)
      · split at hm
        · split at hm
          · rename_i b cc rem heq
            split at hm
            · rename_i hlen
              split at hm
              · rename_i x y hxy
                rcases List.mem_cons.mp hm with rfl | hm
                · have hlow := tryMoveMatch_lower heq
                  cases cc with
                  | nil => simp at hlen
                  | cons a1 cc1 =>
                    cases cc1 with
                    | nil => simp at hlen
                    | cons a2 cc2 =>
                      cases cc2 with
                      | nil =>
                        exact toXY_two_lower_bounds
                          (hlow a1 (by simp)) (hlow a2 (by simp)) hxy
                      | cons a3 cc3 => simp at hlen
                · exact ih _ _ m hm
              · exact ih _ _ m hm
            · exact ih _ _ m hm
          · exact ih _ _ m hm
        · exact ih _ _ m hm

/-- C9: every move the opening-move extractor produces has coordinates
in `[1, 26]` on both axes (the two-lowercase-letter form guarantees it),
and no upper-bound check against the active board size is applied: the
record `";B[ta]"` yields the move `(20, 1)` — beyond a 19×19 board — and
that move participates in pattern matching (a configured pattern at
`(20, 1)` matches). -/
theorem opening_moves_bounds :
    (∀ (src : String), ∀ m ∈ extractOpeningMoves src,
        1 ≤ m.x ∧ m.x ≤ 26 ∧ 1 ≤ m.y ∧ m.y ≤ 26) ∧
    extractOpeningMoves ";B[ta]" = [⟨20, 1, 'B'⟩] ∧
    matchedFusekiNames [⟨"線外", [⟨20, 1⟩]⟩] (extractOpeningMoves ";B[ta]") = ["線外"] := by
  refine ⟨?_, by decide, by decide⟩
  intro src m hm
  exact movesLoop_coord_bounds _ _ _ m hm

/-- C9 (witness): the bounds applied to the concrete move extracted from
`";B[ta]"`. -/
theorem opening_moves_bounds_witness :
    1 ≤ (⟨20, 1, 'B'⟩ : OpeningMove).x ∧ (⟨20, 1, 'B'⟩ : OpeningMove).x ≤ 26 ∧
    1 ≤ (⟨20, 1, 'B'⟩ : OpeningMove).y ∧ (⟨20, 1, 'B'⟩ : OpeningMove).y ≤ 26 :=
  opening_moves_bounds.1 ";B[ta]" ⟨20, 1, 'B'⟩ (by decide)

theorem branchStep_i_lt (sgf : List Char) (st : BState) : st.i < (branchStep sgf st).i := by
  rw [branchStep]
  dsimp only
  split_ifs <;> try (dsimp only; omega)
  cases hf : (sgf.drop st.i).findIdx? (fun ch => ch == ']') with
  | none => dsimp only; omega
  | some k => dsimp only; omega

theorem runBranchScan_succ (sgf : List Char) (fuel : Nat) (st : BState) :
    runBranchScan sgf (fuel + 1) st =
      if st.i < sgf.length then runBranchScan sgf fuel (branchStep sgf st) else st := rfl

theorem runBranchScan_fuel_stable (sgf : List Char) :
    ∀ (fuel extra : Nat) (st : BState), sgf.length - st.i ≤ fuel →
      runBranchScan sgf (fuel + extra) st = runBranchScan sgf fuel st := by
  intro fuel
  induction fuel with
  | zero =>
    intro extra st h
    cases extra with
    | zero => rfl
    | succ e =>
      rw [Nat.zero_add, runBranchScan_succ, if_neg (by omega)]
      rfl
  | succ f ih =>
    intro extra st h
    have hshape : f + 1 + extra = (f + extra) + 1 := by omega
    rw [hshape, runBranchScan_succ, runBranchScan_succ]
    by_cases hg : st.i < sgf.length
    · rw [if_pos hg, if_pos hg]
      have hstep := branchStep_i_lt sgf st
      exact ih extra (branchStep sgf st) (by omega)
    · rw [if_neg hg, if_neg hg]

/-- C10: the branch-point scanner is total on every input, including
unbalanced variation delimiters and unterminated property-value
brackets: every loop iteration strictly increases the scan index, so
the fuel the embedding passes (the input length) always reaches the
loop's exit condition — adding any amount of extra fuel never changes
the result; a close marker seen with an empty stack is a silent no-op
on the stack (the JavaScript `pop` of an empty array), affecting only
the index; and concretely, unbalanced inputs produce a defined result
rather than an error. -/
theorem branch_scan_total :
    (∀ (sgf : List Char) (st : BState), st.i < (branchStep sgf st).i) ∧
    (∀ (sgf : List Char) (st : BState), sgf.getD st.i ' ' = ')' → st.stack = [] →
        branchStep sgf st = { st with i := st.i + 1 }) ∧
    (∀ (sgf : List Char) (fuel extra : Nat) (st : BState), sgf.length - st.i ≤ fuel →
        runBranchScan sgf (fuel + extra) st = runBranchScan sgf fuel st) ∧
    getBranchMoves "(;B[ab" = [] ∧ getBranchMoves ")())((" = [0] := by
  refine ⟨branchStep_i_lt, ?_, runBranchScan_fuel_stable, by decide, by decide⟩
  intro sgf st hc hs
  have hc' : sgf[st.i]?.getD ' ' = ')' := by simpa using hc
  rw [branchStep]
  dsimp only
  rw [if_neg (by simp [hc']), if_pos (by simp [hc']), hs]
  rfl

/-- C10 (witness): the step and fuel-stability facts applied at a
concrete scanner state. -/
theorem branch_scan_total_witness :
    (⟨1, 0, [], []⟩ : BState).i < (branchStep ")abc".data ⟨1, 0, [], []⟩).i ∧
    branchStep ")abc".data ⟨0, 2, [], [7]⟩ = ⟨1, 2, [], [7]⟩ ∧
    runBranchScan "(;B[ab".data (6 + 5) ⟨0, 0, [], []⟩ =
      runBranchScan "(;B[ab".data 6 ⟨0, 0, [], []⟩ :=
  ⟨branch_scan_total.1 ")abc".data ⟨1, 0, [], []⟩,
   branch_scan_total.2.1 ")abc".data ⟨0, 2, [], [7]⟩ (by decide) rfl,
   branch_scan_total.2.2.1 "(;B[ab".data 6 5 ⟨0, 0, [], []⟩ (by decide)⟩

/-- C1 (counterexample): the running move counter of the branch-point
scanner **does** count a pass node.  Scanning the single pass node
`";B[]"` leaves the counter at 1 although no stone was placed, and on
`"(;B[](;W[ab])(;W[ba]))"` — a pass followed by two sibling variations —
the emitted branch plies are `[1, 2]`, counting the pass, where the
claim requires `[0, 1]` (played stones only). -/
theorem branch_counter_counts_pass_counterexample :
    (runBranchScan ";B[]".data ";B[]".data.length ⟨0, 0, [], []⟩).currentMove = 1 ∧
    getBranchMoves "(;B[](;W[ab])(;W[ba]))" = [1, 2] := by
  decide

/-- C1 (amended): the scanner's move counter increments exactly on the
nodes whose first two characters after the `;` are `B[` or `W[` — in
particular an empty-bracket pass node `;B[]` increments it, while setup
nodes (`;AB[…]`) and bare passes written without brackets do not; the
emitted ply numbers therefore count `B[`/`W[` nodes, passes included,
not played stones only. -/
theorem branch_counter_increment_characterization :
    ∀ (sgf : List Char) (st : BState),
      (branchStep sgf st).currentMove =
        if sgf.getD st.i ' ' = ';' ∧
            (sgf.getD (st.i + 1) ' ' = 'B' ∨ sgf.getD (st.i + 1) ' ' = 'W') ∧
            sgf.getD (st.i + 2) ' ' = '[' then
          st.currentMove + 1
        else st.currentMove := by
  intro sgf st
  rw [branchStep]
  simp only [List.getD_eq_getElem?_getD]
  by_cases h1 : sgf[st.i]?.getD ' ' = '('
  · rw [if_pos (show (sgf[st.i]?.getD ' ' == '(') = true by simp [h1])]
    rw [if_neg (show ¬(sgf[st.i]?.getD ' ' = ';' ∧
        (sgf[st.i + 1]?.getD ' ' = 'B' ∨ sgf[st.i + 1]?.getD ' ' = 'W') ∧
        sgf[st.i + 2]?.getD ' ' = '[') from fun hcon => by
      rw [h1] at hcon
      exact absurd hcon.1 (by decide))]
  · by_cases h2 : sgf[st.i]?.getD ' ' = ')'
    · rw [if_neg (show ¬(sgf[st.i]?.getD ' ' == '(') = true by simp [h1]),
        if_pos (show (sgf[st.i]?.getD ' ' == ')') = true by simp [h2]),
        if_neg (show ¬(sgf[st.i]?.getD ' ' = ';' ∧
          (sgf[st.i + 1]?.getD ' ' = 'B' ∨ sgf[st.i + 1]?.getD ' ' = 'W') ∧
          sgf[st.i + 2]?.getD ' ' = '[') from fun hcon => by
        rw [h2] at hcon
        exact absurd hcon.1 (by decide))]
    · by_cases h3 : sgf[st.i]?.getD ' ' = ';'
      · rw [if_neg (show ¬(sgf[st.i]?.getD ' ' == '(') = true by simp [h1]),
          if_neg (show ¬(sgf[st.i]?.getD ' ' == ')') = true by simp [h2]),
          if_pos (show (sgf[st.i]?.getD ' ' == ';') = true by simp [h3])]
        by_cases h4 : ((sgf[st.i + 1]?.getD ' ' == 'B' || sgf[st.i + 1]?.getD ' ' == 'W') &&
            sgf[st.i + 2]?.getD ' ' == '[') = true
        · rw [if_pos h4]
          rw [if_pos (show sgf[st.i]?.getD ' ' = ';' ∧
              (sgf[st.i + 1]?.getD ' ' = 'B' ∨ sgf[st.i + 1]?.getD ' ' = 'W') ∧
              sgf[st.i + 2]?.getD ' ' = '[' by
            simp only [Bool.and_eq_true, Bool.or_eq_true, beq_iff_eq] at h4
            exact ⟨h3, h4.1, h4.2⟩)]
        · rw [if_neg h4]
          rw [if_neg (show ¬(sgf[st.i]?.getD ' ' = ';' ∧
              (sgf[st.i + 1]?.getD ' ' = 'B' ∨ sgf[st.i + 1]?.getD ' ' = 'W') ∧
              sgf[st.i + 2]?.getD ' ' = '[') from fun hcon =>
            absurd (show ((sgf[st.i + 1]?.getD ' ' == 'B' || sgf[st.i + 1]?.getD ' ' == 'W') &&
                sgf[st.i + 2]?.getD ' ' == '[') = true by
              rcases hcon.2.1 with h | h <;> simp [h, hcon.2.2]) h4)]
      · have hno : ¬(sgf[st.i]?.getD ' ' = ';' ∧
            (sgf[st.i + 1]?.getD ' ' = 'B' ∨ sgf[st.i + 1]?.getD ' ' = 'W') ∧
            sgf[st.i + 2]?.getD ' ' = '[') := fun hcon => absurd hcon.1 h3
        rw [if_neg (show ¬(sgf[st.i]?.getD ' ' == '(') = true by simp [h1]),
          if_neg (show ¬(sgf[st.i]?.getD ' ' == ')') = true by simp [h2]),
          if_neg (show ¬(sgf[st.i]?.getD ' ' == ';') = true by simp [h3])]
        by_cases h5 : sgf[st.i]?.getD ' ' = '['
        · rw [if_pos (show (sgf[st.i]?.getD ' ' == '[') = true by simp [h5])]
          cases hf : (sgf.drop st.i).findIdx? (fun ch => ch == ']') with
          | none => rw [if_neg hno]
          | some k => rw [if_neg hno]
        · rw [if_neg (show ¬(sgf[st.i]?.getD ' ' == '[') = true by simp [h5]), if_neg hno]

theorem two_le_countP (p : α → Bool) {l : List α} {a b : α}
    (ha : a ∈ l) (hb : b ∈ l) (hab : a ≠ b) (hpa : p a = true) (hpb : p b = true) :
    2 ≤ l.countP p := by
  obtain ⟨s, t, rfl⟩ := List.append_of_mem ha
  rw [List.countP_append, List.countP_cons_of_pos _ _ hpa]
  rcases List.mem_append.mp hb with hbs | hbt
  · have h1 : 0 < s.countP p := List.countP_pos_iff.mpr ⟨b, hbs, hpb⟩
    omega
  · rcases List.mem_cons.mp hbt with rfl | hbt2
    · exact absurd rfl hab
    · have h1 : 0 < t.countP p := List.countP_pos_iff.mpr ⟨b, hbt2, hpb⟩
      omega

theorem hasSameColorAll_iff (moves : List OpeningMove) (coords : List FusekiCoord)
    (color : Char) :
    hasSameColorAll moves coords color = true ↔
      ∀ c ∈ coords, ∃ m ∈ moves, m.color = color ∧ m.x = c.x ∧ m.y = c.y := by
  rw [hasSameColorAll]
  simp only [List.all_eq_true, List.any_eq_true, Bool.and_eq_true, beq_iff_eq, and_assoc]

theorem hasSameColorAll_false_of (moves : List OpeningMove) (coords : List FusekiCoord)
    (color : Char) (c : FusekiCoord) (hc : c ∈ coords)
    (hno : ∀ mm ∈ moves, ¬(mm.color = color ∧ mm.x = c.x ∧ mm.y = c.y)) :
    hasSameColorAll moves coords color = false := by
  rw [← Bool.not_eq_true, hasSameColorAll_iff]
  intro hall
  obtain ⟨mm, hmm, hcol, hx, hy⟩ := hall c hc
  exact hno mm hmm ⟨hcol, hx, hy⟩

theorem coord_eq_of_same_xy {p q : FusekiCoord} (hx : p.x = q.x) (hy : p.y = q.y) : p = q := by
  cases p; cases q; simp_all

theorem fuseki_flip_breaks_one (g : FusekiGroup) (A B : List OpeningMove) (m : OpeningMove)
    (p q : FusekiCoord) (col col' : Char)
    (hp : p ∈ g.coords) (hq : q ∈ g.coords) (hpq : p ≠ q)
    (hmx : m.x = p.x) (hmy : m.y = p.y)
    (honce : ∀ c ∈ g.coords,
      (A ++ m :: B).countP (fun mm => mm.x == c.x && mm.y == c.y) = 1)
    (hcol : col ≠ col')
    (hflipcol : (flipMove m).color ≠ col)
    (hcov : hasSameColorAll (A ++ m :: B) g.coords col = true) :
    hasSameColorAll (A ++ flipMove m :: B) g.coords col = false ∧
    hasSameColorAll (A ++ flipMove m :: B) g.coords col' = false := by
  have hmP : (fun mm : OpeningMove => mm.x == p.x && mm.y == p.y) m = true := by
    simp [hmx, hmy]
  have hcp := honce p hp
  have hcq := honce q hq
  rw [List.countP_append,
    List.countP_cons_of_pos (fun mm : OpeningMove => mm.x == p.x && mm.y == p.y) B hmP] at hcp
  have hA0 : A.countP (fun mm => mm.x == p.x && mm.y == p.y) = 0 := by omega
  have hB0 : B.countP (fun mm => mm.x == p.x && mm.y == p.y) = 0 := by omega
  have hcovP := (hasSameColorAll_iff _ _ _).mp hcov
  constructor
  · -- the original colour loses its witness at p
    apply hasSameColorAll_false_of _ _ _ p hp
    intro mm hmm hcon
    rcases List.mem_append.mp hmm with hA | hmB
    · exact (List.countP_eq_zero.mp hA0) mm hA (by simp [hcon.2.1, hcon.2.2])
    · rcases List.mem_cons.mp hmB with rfl | hmB2
      · exact hflipcol hcon.1
      · exact (List.countP_eq_zero.mp hB0) mm hmB2 (by simp [hcon.2.1, hcon.2.2])
  · -- the opposite colour has no witness at q
    obtain ⟨m2, hm2M, hm2col, hm2x, hm2y⟩ := hcovP q hq
    have hm2Q : (fun mm : OpeningMove => mm.x == q.x && mm.y == q.y) m2 = true := by
      simp [hm2x, hm2y]
    apply hasSameColorAll_false_of _ _ _ q hq
    intro mm hmm hcon
    have hmmQ : (fun mm : OpeningMove => mm.x == q.x && mm.y == q.y) mm = true := by
      simp [hcon.2.1, hcon.2.2]
    have hmmne : mm ≠ m2 := by
      intro he
      rw [he] at hcon
      rw [hcon.1] at hm2col
      exact hcol hm2col.symm
    have hmmM : mm ∈ A ++ m :: B := by
      rcases List.mem_append.mp hmm with hA | hmB
      · exact List.mem_append.mpr (Or.inl hA)
      · rcases List.mem_cons.mp hmB with rfl | hmB2
        · exfalso
          apply hpq
          apply coord_eq_of_same_xy
          · rw [← hmx, ← hcon.2.1]
            rfl
          · rw [← hmy, ← hcon.2.2]
            rfl
        · exact List.mem_append.mpr (Or.inr (List.mem_cons.mpr (Or.inr hmB2)))
    have h2 := two_le_countP (fun mm : OpeningMove => mm.x == q.x && mm.y == q.y)
      hmmM hm2M hmmne hmmQ hm2Q
    omega

/-- C2 (counterexample): the matcher is colour-symmetric, so changing
the colour of a matched coordinate need **not** break the match.  A
pattern `corner = {(4,4)}` matches the sequence whose only move is a
black stone at `(4,4)`, and still matches after that move's colour is
flipped to white (the all-white test then succeeds). -/
theorem pattern_match_color_flip_counterexample :
    matchedFusekiNames [⟨"corner", [⟨4, 4⟩]⟩] [⟨4, 4, 'B'⟩] = ["corner"] ∧
    matchedFusekiNames [⟨"corner", [⟨4, 4⟩]⟩] [flipMove ⟨4, 4, 'B'⟩] = ["corner"] := by
  decide

/-- C2 (amended): a pattern's name is in the matcher's output iff some
configured group with that name has every coordinate occupied in the
sequence by one single colour (all-first-player or all-second-player
across the whole coordinate set).  The flip property holds only in a
restricted form: if a matching pattern has two distinct coordinates and
each pattern coordinate occurs exactly once among the moves, then
changing the colour of the move at one of its coordinates makes the
pattern not match.  (Unrestricted, the property is false: matching is
colour-symmetric, see the counterexample.) -/
theorem pattern_match_monochrome_amended :
    (∀ (groups : List FusekiGroup) (moves : List OpeningMove) (name : String),
        name ∈ matchedFusekiNames groups moves ↔
          ∃ g ∈ groups, g.name = name ∧
            ((∀ c ∈ g.coords, ∃ m ∈ moves, m.color = 'B' ∧ m.x = c.x ∧ m.y = c.y) ∨
             (∀ c ∈ g.coords, ∃ m ∈ moves, m.color = 'W' ∧ m.x = c.x ∧ m.y = c.y))) ∧
    (∀ (g : FusekiGroup) (A B : List OpeningMove) (m : OpeningMove) (p q : FusekiCoord),
        p ∈ g.coords → q ∈ g.coords → p ≠ q → m.x = p.x → m.y = p.y →
        (∀ c ∈ g.coords, (A ++ m :: B).countP (fun mm => mm.x == c.x && mm.y == c.y) = 1) →
        fusekiGroupMatches g (A ++ m :: B) = true →
        fusekiGroupMatches g (A ++ flipMove m :: B) = false) := by
  constructor
  · intro groups moves name
    simp only [matchedFusekiNames, List.mem_map, List.mem_filter, fusekiGroupMatches,
      Bool.or_eq_true, hasSameColorAll_iff]
    constructor
    · rintro ⟨g, ⟨hg, hcov⟩, hname⟩
      exact ⟨g, hg, hname, hcov⟩
    · rintro ⟨g, hg, hname, hcov⟩
      exact ⟨g, ⟨hg, hcov⟩, hname⟩
  · intro g A B m p q hp hq hpq hmx hmy honce hmatch
    -- the colour the original cover uses determines the move's colour at p
    have hmP : (fun mm : OpeningMove => mm.x == p.x && mm.y == p.y) m = true := by
      simp [hmx, hmy]
    have hcp := honce p hp
    rw [List.countP_append,
      List.countP_cons_of_pos (fun mm : OpeningMove => mm.x == p.x && mm.y == p.y) B hmP] at hcp
    have hA0 : A.countP (fun mm : OpeningMove => mm.x == p.x && mm.y == p.y) = 0 := by omega
    have hB0 : B.countP (fun mm : OpeningMove => mm.x == p.x && mm.y == p.y) = 0 := by omega
    have hmcol : ∀ col : Char, hasSameColorAll (A ++ m :: B) g.coords col = true →
        m.color = col := by
      intro col hcov
      obtain ⟨m1, hm1M, hm1col, hm1x, hm1y⟩ := (hasSameColorAll_iff _ _ _).mp hcov p hp
      have hm1P : (fun mm : OpeningMove => mm.x == p.x && mm.y == p.y) m1 = true := by
        simp [hm1x, hm1y]
      by_cases he : m1 = m
      · rw [← he]; exact hm1col
      · exfalso
        have hmM : m ∈ A ++ m :: B := List.mem_append.mpr (Or.inr (List.mem_cons_self m B))
        have h2 := two_le_countP (fun mm : OpeningMove => mm.x == p.x && mm.y == p.y)
          hm1M hmM he hm1P hmP
        have := honce p hp
        omega
    rw [fusekiGroupMatches, Bool.or_eq_true] at hmatch
    rw [fusekiGroupMatches]
    rcases hmatch with hcov | hcov
    · have hmB : m.color = 'B' := hmcol 'B' hcov
      have hflip : (flipMove m).color = 'W' := by rw [flipMove]; simp [hmB]
      have hboth := fuseki_flip_breaks_one g A B m p q 'B' 'W' hp hq hpq hmx hmy honce
        (by decide) (by rw [hflip]; decide) hcov
      rw [hboth.1, hboth.2]
      rfl
    · have hmW : m.color = 'W' := hmcol 'W' hcov
      have hflip : (flipMove m).color = 'B' := by
        rw [flipMove]
        simp only [hmW]
        rw [if_neg (by decide)]
      have hboth := fuseki_flip_breaks_one g A B m p q 'W' 'B' hp hq hpq hmx hmy honce
        (by decide) (by rw [hflip]; decide) hcov
      rw [hboth.1, hboth.2]
      rfl

/-- C2 (witness): the amended flip property applied to the two-point
pattern `{(4,4), (3,3)}` matched by two black stones — flipping the
stone at `(4,4)` to white leaves the pattern unmatched. -/
theorem pattern_match_monochrome_amended_witness :
    fusekiGroupMatches ⟨"x", [⟨4, 4⟩, ⟨3, 3⟩]⟩ [flipMove ⟨4, 4, 'B'⟩, ⟨3, 3, 'B'⟩] = false :=
  pattern_match_monochrome_amended.2 ⟨"x", [⟨4, 4⟩, ⟨3, 3⟩]⟩ [] [⟨3, 3, 'B'⟩] ⟨4, 4, 'B'⟩
    ⟨4, 4⟩ ⟨3, 3⟩ (by decide) (by decide) (by decide) rfl rfl (by decide) (by decide)
